import Mathlib

/-!
Verification of the nalu-wind matrix-free gather / geometric-metric /
assembly core against its specification.

The definitions below are shallow embeddings of the C++ sources:
* `src/src/matrix_free/StkSimdGatheredElementData.C` (SIMD field gathers),
* `src/src/matrix_free/LinearVolume.C` (hex Jacobians and volume metric),
* `src/include/HypreCudaLinearSystemAssembler.h` (assembler interface).
Machine `double` arithmetic is modelled over `ℚ`; Kokkos views are
modelled as total functions from indices; a `parallel_for` writing to
disjoint slots is modelled as the list of writes it performs, applied in
program order.
-/

namespace NaluWind

/-- Modelled from the spec: a mesh entity handle
(`stk::mesh::FastMeshIndex`, declared outside this repository's shown
sources) is an opaque identifier which is either valid or an
invalid/padding marker.  The predicate `valid_mesh_index` (declared in
`StkSimdConnectivityMap.h`, not under `src/`) tests validity. -/
structure MeshIndex where
  ident : Nat
  valid : Bool
deriving DecidableEq, Repr

/-- Embeds `valid_mesh_index` from `StkSimdConnectivityMap.h`. -/
def valid_mesh_index (m : MeshIndex) : Bool := m.valid

/-- Element connectivity table: `(batch, k, j, i, lane) → MeshIndex`,
the shallow embedding of `const_elem_mesh_index_view<p>`. -/
def ElemConn : Type := Nat → Nat → Nat → Nat → Nat → MeshIndex

/-- Face connectivity table: `(batch, j, i, lane) → MeshIndex`. -/
def FaceConn : Type := Nat → Nat → Nat → Nat → MeshIndex

/-- Node connectivity table: `(batch, lane) → MeshIndex`. -/
def NodeConn : Type := Nat → Nat → MeshIndex

/-- Lane-resolution performed by `stk_simd_scalar_field_gather_t::invoke`
(StkSimdGatheredElementData.C lines 43-45): lane `n` of batch `index` is
checked once via its node-(0,0,0) handle; if invalid, the lane falls back
to lane 0's handle at the same node `(k,j,i)`. -/
def resolve_elem (conn : ElemConn) (index k j i n : Nat) : MeshIndex :=
  if valid_mesh_index (conn index 0 0 0 n) then conn index k j i n
  else conn index k j i 0

/-- Lane-resolution of the face gathers
(StkSimdGatheredElementData.C lines 104-106 and 129-131). -/
def resolve_face (conn : FaceConn) (index j i n : Nat) : MeshIndex :=
  if valid_mesh_index (conn index 0 0 n) then conn index j i n
  else conn index j i 0

/-- Lane-resolution of `stk_simd_scalar_node_gather`
(StkSimdGatheredElementData.C lines 161-164). -/
def resolve_node (conn : NodeConn) (index n : Nat) : MeshIndex :=
  if valid_mesh_index (conn index n) then conn index n
  else conn index 0

/-- One `stk::simd::set_data` store: target slot (of view-specific index
type `α`), SIMD lane, and stored value. -/
structure GWrite (α : Type) where
  slot : α
  lane : Nat
  value : ℚ

/-- Apply a list of stores to an output view (modelled as a function),
in program order; later stores to the same (slot, lane) win. -/
def applyWrites {α : Type} [DecidableEq α] (ws : List (GWrite α))
    (out : α → Nat → ℚ) : α → Nat → ℚ :=
  ws.foldl (fun o w s l => if s = w.slot ∧ l = w.lane then w.value else o s l) out

/-- The list of stores performed by
`stk_simd_scalar_field_gather_t<p>::invoke` over `nb` batches
(StkSimdGatheredElementData.C lines 36-54): loops over lane `n`, then
`k`, `j`, `i` in `0..p`, storing `field.get(mesh_index, 0)` of the
resolved handle into slot `(index, k, j, i)` lane `n`. -/
def scalar_gather_writes (p L nb : Nat) (conn : ElemConn)
    (field : MeshIndex → Nat → ℚ) : List (GWrite (Nat × Nat × Nat × Nat)) :=
  (List.range nb).flatMap fun index =>
    (List.range L).flatMap fun n =>
      (List.range (p + 1)).flatMap fun k =>
        (List.range (p + 1)).flatMap fun j =>
          (List.range (p + 1)).map fun i =>
            ⟨(index, k, j, i), n, field (resolve_elem conn index k j i n) 0⟩

/-- The list of stores performed by
`stk_simd_vector_field_gather_t<p>::invoke`
(StkSimdGatheredElementData.C lines 57-88): per node, three stores of
components 0, 1, 2 into slots `(index, k, j, i, c)`. -/
def vector_gather_writes (p L nb : Nat) (conn : ElemConn)
    (field : MeshIndex → Nat → ℚ) :
    List (GWrite (Nat × Nat × Nat × Nat × Nat)) :=
  (List.range nb).flatMap fun index =>
    (List.range L).flatMap fun n =>
      (List.range (p + 1)).flatMap fun k =>
        (List.range (p + 1)).flatMap fun j =>
          (List.range (p + 1)).flatMap fun i =>
            (List.range 3).map fun c =>
              ⟨(index, k, j, i, c), n, field (resolve_elem conn index k j i n) c⟩

/-- The list of stores performed by `stk_simd_scalar_node_gather`
(StkSimdGatheredElementData.C lines 152-169). -/
def node_gather_writes (L nb : Nat) (conn : NodeConn)
    (field : MeshIndex → Nat → ℚ) : List (GWrite Nat) :=
  (List.range nb).flatMap fun index =>
    (List.range L).map fun n =>
      ⟨index, n, field (resolve_node conn index n) 0⟩

/-- Output view of the scalar element gather: the stores applied to the
initial view contents. -/
def scalar_gather (p L nb : Nat) (conn : ElemConn)
    (field : MeshIndex → Nat → ℚ) (out : Nat × Nat × Nat × Nat → Nat → ℚ) :
    Nat × Nat × Nat × Nat → Nat → ℚ :=
  applyWrites (scalar_gather_writes p L nb conn field) out

/-- Output view of the vector element gather. -/
def vector_gather (p L nb : Nat) (conn : ElemConn)
    (field : MeshIndex → Nat → ℚ)
    (out : Nat × Nat × Nat × Nat × Nat → Nat → ℚ) :
    Nat × Nat × Nat × Nat × Nat → Nat → ℚ :=
  applyWrites (vector_gather_writes p L nb conn field) out

/-- Output view of the node gather. -/
def node_gather (L nb : Nat) (conn : NodeConn)
    (field : MeshIndex → Nat → ℚ) (out : Nat → Nat → ℚ) : Nat → Nat → ℚ :=
  applyWrites (node_gather_writes L nb conn field) out

/-- The mesh indices passed to `field.get` by the scalar element gather,
in program order (StkSimdGatheredElementData.C lines 36-54). -/
def scalar_gather_accessed (p L nb : Nat) (conn : ElemConn) : List MeshIndex :=
  (List.range nb).flatMap fun index =>
    (List.range L).flatMap fun n =>
      (List.range (p + 1)).flatMap fun k =>
        (List.range (p + 1)).flatMap fun j =>
          (List.range (p + 1)).map fun i =>
            resolve_elem conn index k j i n

/-- The mesh indices passed to `field.get` by the face scalar gather
(StkSimdGatheredElementData.C lines 91-114). -/
def face_gather_accessed (p L nb : Nat) (conn : FaceConn) : List MeshIndex :=
  (List.range nb).flatMap fun index =>
    (List.range L).flatMap fun n =>
      (List.range (p + 1)).flatMap fun j =>
        (List.range (p + 1)).map fun i =>
          resolve_face conn index j i n

/-- The mesh indices passed to `field.get` by the node gather
(StkSimdGatheredElementData.C lines 152-169). -/
def node_gather_accessed (L nb : Nat) (conn : NodeConn) : List MeshIndex :=
  (List.range nb).flatMap fun index =>
    (List.range L).map fun n =>
      resolve_node conn index n

/-- Modelled from the spec: the claim's stated lane policy — "lane
validity is determined once per batch by checking lane-0's handle, never
per-lane".  Under that policy the batch-level check inspects lane 0 and
each lane then keeps its own handle. -/
def resolve_elem_batch_policy (conn : ElemConn) (index k j i n : Nat) :
    MeshIndex :=
  if valid_mesh_index (conn index 0 0 0 0) then conn index k j i n
  else conn index k j i 0

/-- Modelled from the spec (§4.1): the connectivity table of
`MeshIndexMap` has `⌈entity_count / L⌉` batches; its construction
(`StkSimdConnectivityMap.C`) is not under `src/`. -/
def batch_count (count L : Nat) : Nat := (count + L - 1) / L

/-- Concrete connectivity table used to separate the per-lane check in
the source from the claim's once-per-batch policy: lane 0 holds a valid
handle (id 10), every other lane an invalid one (id 99). -/
def connCx : ElemConn := fun _ _ _ _ n =>
  if n = 0 then ⟨10, true⟩ else ⟨99, false⟩

/-- Embeds `hex_jacobian_component<p, dj, di>` (LinearVolume.C lines
28-66); `Nlin` stands for the coefficient array `Coeffs<p>::Nlin`, the
source's `0.5` factor is written `1/2` over `ℚ`, and the three `dj`
branches are transcribed sign-for-sign with `LN = 0`, `RN = 1`,
`XH = 0`, `YH = 1`, `ZH = 2`. -/
def hex_jacobian_component (Nlin : Nat → Nat → ℚ) (box : Nat → Nat → ℚ)
    (dj di k j i : Nat) : ℚ :=
  if dj = 0 then
    (-(Nlin 0 j) * Nlin 0 k * box di 0 +
        Nlin 0 j * Nlin 0 k * box di 1 +
        Nlin 1 j * Nlin 0 k * box di 2 -
        Nlin 1 j * Nlin 0 k * box di 3 -
        Nlin 0 j * Nlin 1 k * box di 4 +
        Nlin 0 j * Nlin 1 k * box di 5 +
        Nlin 1 j * Nlin 1 k * box di 6 -
        Nlin 1 j * Nlin 1 k * box di 7) * (1 / 2)
  else if dj = 1 then
    (-(Nlin 0 i) * Nlin 0 k * box di 0 -
        Nlin 1 i * Nlin 0 k * box di 1 +
        Nlin 1 i * Nlin 0 k * box di 2 +
        Nlin 0 i * Nlin 0 k * box di 3 -
        Nlin 0 i * Nlin 1 k * box di 4 -
        Nlin 1 i * Nlin 1 k * box di 5 +
        Nlin 1 i * Nlin 1 k * box di 6 +
        Nlin 0 i * Nlin 1 k * box di 7) * (1 / 2)
  else
    (-(Nlin 0 i) * Nlin 0 j * box di 0 -
        Nlin 1 i * Nlin 0 j * box di 1 -
        Nlin 1 i * Nlin 1 j * box di 2 -
        Nlin 0 i * Nlin 1 j * box di 3 +
        Nlin 0 i * Nlin 0 j * box di 4 +
        Nlin 1 i * Nlin 0 j * box di 5 +
        Nlin 1 i * Nlin 1 j * box di 6 +
        Nlin 0 i * Nlin 1 j * box di 7) * (1 / 2)

/-- Embeds `linear_hex_jacobian` (LinearVolume.C lines 68-85):
`jac(r, c) = hex_jacobian_component<p, r, c>(coeff, box, k, j, i)`. -/
def linear_hex_jacobian (Nlin : Nat → Nat → ℚ) (box : Nat → Nat → ℚ)
    (k j i : Nat) : Nat → Nat → ℚ :=
  fun r c => hex_jacobian_component Nlin box r c k j i

/-- Modelled from the spec: `determinant<ftype>` of a 3×3 matrix
(declared in `TensorOperations.h`, not under `src/`): cofactor expansion
along the first row. -/
def det3 (m : Nat → Nat → ℚ) : ℚ :=
  m 0 0 * (m 1 1 * m 2 2 - m 1 2 * m 2 1) -
    m 0 1 * (m 1 0 * m 2 2 - m 1 2 * m 2 0) +
    m 0 2 * (m 1 0 * m 2 1 - m 1 1 * m 2 0)

/-- Tensor indices `(k, j, i)` of hex corner `c` as multiples of `p`,
in the standard hex-8 ordering recoverable from the sign pattern of
`hex_jacobian_component`: corners 0-3 on the bottom (`k = 0`), 4-7 on
top, with `i` increasing first then `j`. -/
def corner_kji : Nat → Nat × Nat × Nat
  | 0 => (0, 0, 0)
  | 1 => (0, 0, 1)
  | 2 => (0, 1, 1)
  | 3 => (0, 1, 0)
  | 4 => (1, 0, 0)
  | 5 => (1, 0, 1)
  | 6 => (1, 1, 1)
  | _ => (1, 1, 0)

/-- Modelled from the spec: `hex_vertex_coordinates<p>` (declared in
`HexVertexCoordinates.h`, not under `src/`) extracts the "box" of 8
corner positions of batch entry `index` from the coordinate view: entry
`(d, c)` is coordinate component `d` of corner `c`, read at the extreme
tensor indices `{0, p}`. -/
def hex_vertex_coordinates (p : Nat)
    (coords : Nat → Nat → Nat → Nat → Nat → ℚ) (index : Nat) :
    Nat → Nat → ℚ :=
  fun d c =>
    coords index ((corner_kji c).1 * p) ((corner_kji c).2.1 * p)
      ((corner_kji c).2.2 * p) d

/-- Embeds the one-argument `volume_metric_t<p>::invoke(coordinates)`
(LinearVolume.C lines 112-131): at every `(k, j, i)` the stored volume
value is the determinant of the linear hex Jacobian of the corner box. -/
def volume_metric (p : Nat) (Nlin : Nat → Nat → ℚ)
    (coords : Nat → Nat → Nat → Nat → Nat → ℚ) (index k j i : Nat) : ℚ :=
  det3 (linear_hex_jacobian Nlin (hex_vertex_coordinates p coords index) k j i)

/-- Embeds the two-argument
`volume_metric_t<p>::invoke(alpha, coordinates)` (LinearVolume.C lines
89-110): the stored value is `alpha(index,k,j,i)` times the same
determinant. -/
def volume_metric_alpha (p : Nat) (Nlin : Nat → Nat → ℚ)
    (alpha : Nat → Nat → Nat → Nat → ℚ)
    (coords : Nat → Nat → Nat → Nat → Nat → ℚ) (index k j i : Nat) : ℚ :=
  alpha index k j i *
    det3 (linear_hex_jacobian Nlin (hex_vertex_coordinates p coords index) k j i)

/-- Modelled from the spec: `Coeffs<1>::Nlin` (declared in
`Coefficients.h`, not under `src/`): the two linear shape functions
`N_L(x) = (1-x)/2`, `N_R(x) = (1+x)/2` evaluated at the two `p = 1`
nodes `x = -1, +1`, so `Nlin(l, n) = 1` if `l = n` and `0` otherwise. -/
def nlin_p1 : Nat → Nat → ℚ := fun l n => if l = n then 1 else 0

/-- Position (0 = left, 1 = right) of corner `c` along the `i` axis. -/
def iSide (c : Nat) : Nat := (corner_kji c).2.2

/-- Position of corner `c` along the `j` axis. -/
def jSide (c : Nat) : Nat := (corner_kji c).2.1

/-- Position of corner `c` along the `k` axis. -/
def kSide (c : Nat) : Nat := (corner_kji c).1

/-- Derivative of the linear shape functions: `-1/2` on the left node
side, `+1/2` on the right. -/
def dsign (s : Nat) : ℚ := if s = 1 then 1 else -1

/-- Modelled from the spec (§4.3): the weight of corner `c` in Jacobian
reference-axis `dj`, "a fixed bilinear combination of the 8 box corner
coordinates weighted by products of linear shape functions evaluated at
(k,j,i)": the linear-shape derivative sign along the fixed axis times
the product of the two remaining linear shape values.  It depends on
neither the coordinate component `di` nor the polynomial order `p`
(only on the `Nlin` table handed in). -/
def spec_weight (Nlin : Nat → Nat → ℚ) (dj c k j i : Nat) : ℚ :=
  if dj = 0 then dsign (iSide c) * (1 / 2) * Nlin (jSide c) j * Nlin (kSide c) k
  else if dj = 1 then
    dsign (jSide c) * (1 / 2) * Nlin (iSide c) i * Nlin (kSide c) k
  else dsign (kSide c) * (1 / 2) * Nlin (iSide c) i * Nlin (jSide c) j

/-- Coordinate view of a parallelepiped element: corner `(k, j, i)`
(indices in `{0, 1}` for `p = 1`) sits at `t + i·u + j·v + k·w`. -/
def para_coords (t u v w : Nat → ℚ) : Nat → Nat → Nat → Nat → Nat → ℚ :=
  fun _ k j i d =>
    t d + (if i = 0 then 0 else u d) + (if j = 0 then 0 else v d) +
      (if k = 0 then 0 else w d)

/-- Closed-form volume of the parallelepiped spanned by `u`, `v`, `w`:
the scalar triple product. -/
def triple_product (u v w : Nat → ℚ) : ℚ :=
  u 0 * (v 1 * w 2 - w 1 * v 2) + v 0 * (w 1 * u 2 - u 1 * w 2) +
    w 0 * (u 1 * v 2 - v 1 * u 2)

/-- Coordinate view of an inverted unit cube: the `x` edge is negated,
so the Jacobian determinant is negative everywhere. -/
def inv_cube_coords : Nat → Nat → Nat → Nat → Nat → ℚ :=
  para_coords (fun _ => 0) (fun d => if d = 0 then -1 else 0)
    (fun d => if d = 1 then 1 else 0) (fun d => if d = 2 then 1 else 0)

/-- Sign of a `p = 1` tensor index: node 0 sits at reference coordinate
`-1`, node 1 at `+1`. -/
def corner_sign (t : Nat) : ℚ := if t = 0 then -1 else 1

/-- Coordinate view of a non-degenerate straight-edged (trilinear, but
not parallelepiped) hexahedron: the image of the reference cube under
`x = ξ`, `y = η + ξ·ζ/2`, `z = ζ + ξ·η/2`.  Its Jacobian determinant is
`1 - ξ²/4 ∈ [3/4, 1]`, positive everywhere. -/
def ruled_hex_coords : Nat → Nat → Nat → Nat → Nat → ℚ :=
  fun _ k j i d =>
    if d = 0 then corner_sign i
    else if d = 1 then corner_sign j + corner_sign i * corner_sign k / 2
    else corner_sign k + corner_sign i * corner_sign j / 2

/-- Modelled from the spec: the linear shape functions `N_L, N_R`
evaluated at the three Simpson nodes `-1, 0, 1`. -/
def nlin_simpson : Nat → Nat → ℚ := fun l q =>
  if l = 0 then (if q = 0 then 1 else if q = 1 then 1/2 else 0)
  else (if q = 0 then 0 else if q = 1 then 1/2 else 1)

/-- Simpson weights `1/3, 4/3, 1/3` for the nodes `-1, 0, 1`. -/
def simpson_w (q : Nat) : ℚ := if q = 1 then 4/3 else 1/3

/-- Modelled from the spec (§4.3, §8): the closed-form volume of a
straight-edged (trilinear) hexahedron given by its corner box — the
exact integral over the reference cube of the trilinear Jacobian
determinant.  That determinant is a polynomial of degree at most 2 in
each reference coordinate, so the tensor-product Simpson rule (nodes
`-1, 0, 1`, weights `1/3, 4/3, 1/3`), exact through degree 3 in each
coordinate, evaluates the integral exactly. -/
def trilinear_volume (box : Nat → Nat → ℚ) : ℚ :=
  ∑ k ∈ Finset.range 3, ∑ j ∈ Finset.range 3, ∑ i ∈ Finset.range 3,
    simpson_w k * simpson_w j * simpson_w i *
      det3 (linear_hex_jacobian nlin_simpson box k j i)

/-! ### Gradient boundary closure scenario
(`UnitTestGreenGaussGradientBoundaryClosure.C`).  The closure itself
(`GreenGaussBoundaryClosure.C`, `LinearExposedAreas.C`, the mesh
fixture) is not under `src/`, so the scenario is modelled from the
spec. -/

/-- Boundary scalar value of the scenario
(`some_value` in the unit test). -/
def qbc : ℚ := -23/10

/-- Cells per direction of the cubic mesh (`nx` in the unit test). -/
def nxbc : Nat := 4

/-- Boundary face side length: domain scale (1) divided by `nxbc`. -/
def hbc : ℚ := 1/4

/-- Grid node with coordinate `c` on axis `d` and transverse
coordinates `a`, `b` in increasing axis order. -/
def place (d : Fin 3) (c a b : Nat) : Nat × Nat × Nat :=
  match d with
  | 0 => (c, a, b)
  | 1 => (a, c, b)
  | 2 => (a, b, c)

/-- The six boundary sides of the cube: fixed axis, boundary
coordinate, and outward normal sign. -/
def sides_bc : List (Fin 3 × Nat × ℚ) :=
  [(0, 0, -1), (0, nxbc, 1), (1, 0, -1), (1, nxbc, 1), (2, 0, -1), (2, nxbc, 1)]

/-- Modelled from the spec (§4.4 and §4.3): the per-quadrature-point
contributions of the gradient boundary closure on the 4×4×4 unit cube
with all boundary faces selected.  Every boundary face is an
axis-aligned `hbc × hbc` square; the `p = 1` exposed-area vector at
each of its 4 corner quadrature points is the face Jacobian cross
product `(hbc/2)·(hbc/2)` times the outward normal, and the closure
contracts the boundary scalar `qbc` with it and scatter-accumulates
into the owning node's residual slot.  Each list item is
`(node, component, contributed value)`. -/
def bc_contribs : List ((Nat × Nat × Nat) × Fin 3 × ℚ) :=
  sides_bc.flatMap fun s =>
    (List.range nxbc).flatMap fun fa =>
      (List.range nxbc).flatMap fun fb =>
        ([0, 1] : List Nat).flatMap fun da =>
          ([0, 1] : List Nat).map fun db =>
            (place s.1 s.2.1 (fa + da) (fb + db), s.1,
              qbc * (s.2.2 * (hbc / 2) * (hbc / 2)))

/-- Modelled from the spec (§4.4, §4.6): the residual at a node after
scatter-accumulation and the single-rank additive owned+shared export:
the sum of all contributions landing in that node's slot. -/
def bc_residual (nd : Nat × Nat × Nat) (d : Fin 3) : ℚ :=
  ((bc_contribs.filter fun t => decide (t.1 = nd ∧ t.2.1 = d)).map
    fun t => t.2.2).sum

/-- The contribution sub-list of one boundary side of `bc_contribs`
(definitionally its `flatMap` body). -/
def bc_side (s : Fin 3 × Nat × ℚ) : List ((Nat × Nat × Nat) × Fin 3 × ℚ) :=
  (List.range nxbc).flatMap fun fa =>
    (List.range nxbc).flatMap fun fb =>
      ([0, 1] : List Nat).flatMap fun da =>
        ([0, 1] : List Nat).map fun db =>
          (place s.1 s.2.1 (fa + da) (fb + db), s.1,
            qbc * (s.2.2 * (hbc / 2) * (hbc / 2)))

/-- Coordinate of a node along a side's fixed axis. -/
def axcoord (d : Fin 3) (nd : Nat × Nat × Nat) : Nat :=
  match d with
  | 0 => nd.1
  | 1 => nd.2.1
  | 2 => nd.2.2

/-- First transverse coordinate of a node for a side of fixed axis `d`. -/
def tra (d : Fin 3) (nd : Nat × Nat × Nat) : Nat :=
  match d with
  | 0 => nd.2.1
  | 1 => nd.1
  | 2 => nd.1

/-- Second transverse coordinate of a node for a side of fixed axis `d`. -/
def trb (d : Fin 3) (nd : Nat × Nat × Nat) : Nat :=
  match d with
  | 0 => nd.2.2
  | 1 => nd.2.2
  | 2 => nd.2.1

/-- Number (as a rational) of face/corner pairs `(fa, w)` of a 4-cell row
whose node index `fa + w` equals `t`. -/
def cntq (t : Nat) : ℚ :=
  ∑ fa ∈ Finset.range 4, ∑ w ∈ Finset.range 2, if fa + w = t then 1 else 0

/-! ### Device assembler (`HypreCudaLinearSystemAssembler.h`)
Only the interface is under `src/`; `MatrixAssembler::assemble` is
modelled from the spec (§4.6): entries are sorted by `(row, col)` key,
then reduced by summation over equal keys. -/

/-- A per-entry contribution: `(row, col)` key and value. -/
abbrev AsmEntry : Type := (Int × Int) × ℚ

/-- Lexicographic order on `(row, col)` keys. -/
def key_le (a b : Int × Int) : Prop := a.1 < b.1 ∨ (a.1 = b.1 ∧ a.2 ≤ b.2)

/-- Strict lexicographic order on `(row, col)` keys. -/
def key_lt (a b : Int × Int) : Prop := a.1 < b.1 ∨ (a.1 = b.1 ∧ a.2 < b.2)

/-- Sort order of assembly entries: by `(row, col)` key. -/
def entry_le (e f : AsmEntry) : Prop := key_le e.1 f.1

instance : DecidableRel key_le := fun a b => by
  unfold key_le; infer_instance

instance : DecidableRel entry_le := fun e f => by
  unfold entry_le; infer_instance

instance : IsTotal AsmEntry entry_le :=
  ⟨fun a b => by
    unfold entry_le key_le
    rcases lt_trichotomy a.1.1 b.1.1 with h | h | h
    · exact Or.inl (Or.inl h)
    · rcases le_total a.1.2 b.1.2 with h2 | h2
      · exact Or.inl (Or.inr ⟨h, h2⟩)
      · exact Or.inr (Or.inr ⟨h.symm, h2⟩)
    · exact Or.inr (Or.inl h)⟩

instance : IsTrans AsmEntry entry_le :=
  ⟨fun a b c h1 h2 => by
    unfold entry_le key_le at h1 h2 ⊢
    rcases h1 with h1 | ⟨h1, h1'⟩ <;> rcases h2 with h2 | ⟨h2, h2'⟩
    · exact Or.inl (h1.trans h2)
    · exact Or.inl (h2 ▸ h1)
    · exact Or.inl (h1 ▸ h2)
    · exact Or.inr ⟨h1.trans h2, h1'.trans h2'⟩⟩

/-- Modelled from the spec (§4.6): the segmented reduction — adjacent
entries with equal `(row, col)` keys are merged by summing their
values. -/
def merge_dups : List AsmEntry → List AsmEntry
  | [] => []
  | e :: rest =>
    match merge_dups rest with
    | [] => [e]
    | f :: out => if e.1 = f.1 then (e.1, e.2 + f.2) :: out else e :: f :: out

/-- Modelled from the spec (§4.6): `MatrixAssembler::assemble`'s
symbolic+numeric phase (its implementation is not under `src/`) —
entries are sorted by `(row, col)` key and reduced by summation over
equal keys. -/
def assemble_entries (l : List AsmEntry) : List AsmEntry :=
  merge_dups (List.insertionSort entry_le l)

/-- Total contributed value for one `(row, col)` key. -/
def key_sum (l : List AsmEntry) (k : Int × Int) : ℚ :=
  ((l.filter fun e => decide (e.1 = k)).map fun e => e.2).sum

/-- Column indices stored for row `r`, in list order. -/
def row_cols (l : List AsmEntry) (r : Int) : List Int :=
  (l.filter fun e => decide (e.1.1 = r)).map fun e => e.1.2

/-! ### Row map owned/shared partition
(`RowMap` per §4.5; only the assembler getters are under `src/`,
`HypreCudaLinearSystemAssembler.h` lines 118-160 and 407-428). -/

/-- Owned partition: the rows this rank is authoritative for. -/
def owned_rows (rows : List Int) (owned : Int → Bool) : List Int :=
  rows.filter owned

/-- Shared partition: rows touched by this rank but owned elsewhere. -/
def shared_rows (rows : List Int) (owned : Int → Bool) : List Int :=
  rows.filter fun r => !owned r

/-- Modelled from the spec (§3 Row Descriptor, §4.5): `RowMap` lays the
rows touched by this rank out with the owned partition as a prefix
range and the shared partition as a suffix range. -/
def row_map_rows (rows : List Int) (owned : Int → Bool) : List Int :=
  owned_rows rows owned ++ shared_rows rows owned

/-- `MatrixAssembler::getNumRows`: rows in both parts. -/
def getNumRows (rows : List Int) (owned : Int → Bool) : Nat :=
  (row_map_rows rows owned).length

/-- `MatrixAssembler::getNumRowsOwned`. -/
def getNumRowsOwned (rows : List Int) (owned : Int → Bool) : Nat :=
  (owned_rows rows owned).length

/-- `MatrixAssembler::getNumRowsShared`. -/
def getNumRowsShared (rows : List Int) (owned : Int → Bool) : Nat :=
  (shared_rows rows owned).length

/-- Nonzeros of the owned part: assembled entries whose row is owned
(the spec's `row < owned_row_count` partition predicate, §4.6). -/
def getNumNonzerosOwned (l : List AsmEntry) (owned : Int → Bool) : Nat :=
  (l.filter fun e => owned e.1.1).length

/-- Nonzeros of the shared part. -/
def getNumNonzerosShared (l : List AsmEntry) (owned : Int → Bool) : Nat :=
  (l.filter fun e => !owned e.1.1).length

/-! ## Theorems -/


theorem key_le_total (a b : Int × Int) : key_le a b ∨ key_le b a := by
  rcases lt_trichotomy a.1 b.1 with h | h | h
  · exact Or.inl (Or.inl h)
  · rcases le_total a.2 b.2 with h2 | h2
    · exact Or.inl (Or.inr ⟨h, h2⟩)
    · exact Or.inr (Or.inr ⟨h.symm, h2⟩)
  · exact Or.inr (Or.inl h)

theorem key_le_trans {a b c : Int × Int} (h1 : key_le a b) (h2 : key_le b c) :
    key_le a c := by
  rcases h1 with h1 | ⟨h1, h1'⟩ <;> rcases h2 with h2 | ⟨h2, h2'⟩
  · exact Or.inl (h1.trans h2)
  · exact Or.inl (h2 ▸ h1)
  · exact Or.inl (h1 ▸ h2)
  · exact Or.inr ⟨h1.trans h2, h1'.trans h2'⟩

theorem key_lt_of_le_of_ne {a b : Int × Int} (h : key_le a b) (hne : a ≠ b) :
    key_lt a b := by
  rcases h with h | ⟨h1, h2⟩
  · exact Or.inl h
  · rcases lt_or_eq_of_le h2 with h2 | h2
    · exact Or.inr ⟨h1, h2⟩
    · exact absurd (Prod.ext h1 h2) hne

theorem key_lt_of_lt_of_le {a b c : Int × Int} (h1 : key_lt a b)
    (h2 : key_le b c) : key_lt a c := by
  rcases h1 with h1 | ⟨h1, h1'⟩ <;> rcases h2 with h2 | ⟨h2, h2'⟩
  · exact Or.inl (h1.trans h2)
  · exact Or.inl (h2 ▸ h1)
  · exact Or.inl (h1 ▸ h2)
  · exact Or.inr ⟨h1.trans h2, h1'.trans_le h2'⟩

theorem le_of_key_lt {a b : Int × Int} (h : key_lt a b) : key_le a b := by
  rcases h with h | ⟨h1, h2⟩
  · exact Or.inl h
  · exact Or.inr ⟨h1, le_of_lt h2⟩


theorem key_sum_cons (e : AsmEntry) (l : List AsmEntry) (k : Int × Int) :
    key_sum (e :: l) k = (if e.1 = k then e.2 else 0) + key_sum l k := by
  by_cases h : e.1 = k <;> simp [key_sum, List.filter_cons, h]

theorem key_sum_perm {l l' : List AsmEntry} (h : l.Perm l') (k : Int × Int) :
    key_sum l k = key_sum l' k :=
  List.Perm.sum_eq ((h.filter _).map _)

theorem key_sum_merge_dups (l : List AsmEntry) (k : Int × Int) :
    key_sum (merge_dups l) k = key_sum l k := by
  induction l with
  | nil => rfl
  | cons e rest ih =>
    rw [key_sum_cons, merge_dups]
    cases hm : merge_dups rest with
    | nil =>
      dsimp only
      rw [hm] at ih
      have h0 : key_sum rest k = 0 := by rw [← ih]; rfl
      rw [h0, key_sum_cons]
      simp [key_sum]
    | cons f out =>
      dsimp only
      rw [hm, key_sum_cons] at ih
      by_cases hk : e.1 = f.1
      · rw [if_pos hk, key_sum_cons, ← ih]
        by_cases hek : e.1 = k
        · rw [if_pos hek, if_pos hek, if_pos (hk ▸ hek)]
          ring
        · rw [if_neg hek, if_neg hek, if_neg (hk ▸ hek)]
          ring
      · rw [if_neg hk, key_sum_cons, key_sum_cons, ← ih]

theorem merge_dups_key_mem (l : List AsmEntry) :
    ∀ x ∈ merge_dups l, ∃ y ∈ l, y.1 = x.1 := by
  induction l with
  | nil => intro x hx; cases hx
  | cons e rest ih =>
    intro x hx
    rw [merge_dups] at hx
    cases hm : merge_dups rest with
    | nil =>
      rw [hm] at hx
      dsimp only at hx
      rw [List.mem_singleton] at hx
      exact ⟨e, List.mem_cons_self e rest, by rw [hx]⟩
    | cons f out =>
      rw [hm] at hx
      dsimp only at hx
      by_cases hk : e.1 = f.1
      · rw [if_pos hk] at hx
        rcases List.mem_cons.mp hx with hx | hx
        · exact ⟨e, List.mem_cons_self e rest, by rw [hx]⟩
        · rcases ih x (hm ▸ List.mem_cons_of_mem f hx) with ⟨y, hy, hky⟩
          exact ⟨y, List.mem_cons_of_mem e hy, hky⟩
      · rw [if_neg hk] at hx
        rcases List.mem_cons.mp hx with hx | hx
        · exact ⟨e, List.mem_cons_self e rest, by rw [hx]⟩
        · rcases ih x (hm ▸ hx) with ⟨y, hy, hky⟩
          exact ⟨y, List.mem_cons_of_mem e hy, hky⟩

theorem merge_dups_key_mem_rev (l : List AsmEntry) :
    ∀ y ∈ l, ∃ x ∈ merge_dups l, x.1 = y.1 := by
  induction l with
  | nil => intro y hy; cases hy
  | cons e rest ih =>
    intro y hy
    rw [merge_dups]
    cases hm : merge_dups rest with
    | nil =>
      dsimp only
      rcases List.mem_cons.mp hy with hy | hy
      · exact ⟨e, List.mem_singleton_self e, by rw [hy]⟩
      · rcases ih y hy with ⟨x, hx, hkx⟩
        rw [hm] at hx
        cases hx
    | cons f out =>
      dsimp only
      by_cases hk : e.1 = f.1
      · rw [if_pos hk]
        rcases List.mem_cons.mp hy with hy | hy
        · exact ⟨(e.1, e.2 + f.2), List.mem_cons_self _ _, by rw [hy]⟩
        · rcases ih y hy with ⟨x, hx, hkx⟩
          rw [hm] at hx
          rcases List.mem_cons.mp hx with hx | hx
          · exact ⟨(e.1, e.2 + f.2), List.mem_cons_self _ _, by
              rw [← hkx, hx, hk]⟩
          · exact ⟨x, List.mem_cons_of_mem _ hx, hkx⟩
      · rw [if_neg hk]
        rcases List.mem_cons.mp hy with hy | hy
        · exact ⟨e, List.mem_cons_self _ _, by rw [hy]⟩
        · rcases ih y hy with ⟨x, hx, hkx⟩
          rw [hm] at hx
          exact ⟨x, List.mem_cons_of_mem _ hx, hkx⟩

theorem merge_dups_pairwise (l : List AsmEntry) (h : l.Pairwise entry_le) :
    (merge_dups l).Pairwise fun a b => key_lt a.1 b.1 := by
  induction l with
  | nil => exact List.Pairwise.nil
  | cons e rest ih =>
    rcases List.pairwise_cons.mp h with ⟨he, hrest⟩
    rw [merge_dups]
    cases hm : merge_dups rest with
    | nil => exact List.pairwise_singleton _ e
    | cons f out =>
      dsimp only
      have hmp : (f :: out).Pairwise fun a b => key_lt a.1 b.1 := hm ▸ ih hrest
      rcases List.pairwise_cons.mp hmp with ⟨hf, hout⟩
      have hle : ∀ x ∈ f :: out, key_le e.1 x.1 := by
        intro x hx
        rcases merge_dups_key_mem rest x (hm ▸ hx) with ⟨y, hy, hky⟩
        exact hky ▸ he y hy
      by_cases hk : e.1 = f.1
      · rw [if_pos hk]
        refine List.pairwise_cons.mpr ⟨fun x hx => ?_, hout⟩
        exact hk ▸ hf x hx
      · rw [if_neg hk]
        refine List.pairwise_cons.mpr ⟨fun x hx => ?_, hmp⟩
        rcases List.mem_cons.mp hx with hx | hx
        · rw [hx]
          exact key_lt_of_le_of_ne (hle f (List.mem_cons_self f out)) hk
        · exact key_lt_of_lt_of_le
            (key_lt_of_le_of_ne (hle f (List.mem_cons_self f out)) hk)
            (le_of_key_lt (hf x hx))

/-- C1: after assembly the CSR structure has sorted, duplicate-free keys
(hence each row's column indices are sorted and unique), and every
(row, col) key's stored value is the exact sum of all contributions with
that key — summed exactly once, never dropped, never double-counted. -/
theorem assemble_csr_sorted_unique_exact (entries : List AsmEntry) (r : Int) :
    ((assemble_entries entries).Pairwise fun a b => key_lt a.1 b.1)
  ∧ (row_cols (assemble_entries entries) r).Pairwise (fun a b => a < b)
  ∧ (∀ k, key_sum (assemble_entries entries) k = key_sum entries k)
  ∧ (∀ k, (∃ x ∈ assemble_entries entries, x.1 = k) ↔
      ∃ y ∈ entries, y.1 = k) := by
  have hsorted : (List.insertionSort entry_le entries).Pairwise entry_le :=
    List.sorted_insertionSort entry_le entries
  have hperm := List.perm_insertionSort entry_le entries
  have hpair : (assemble_entries entries).Pairwise fun a b => key_lt a.1 b.1 :=
    merge_dups_pairwise _ hsorted
  refine ⟨hpair, ?_, ?_, ?_⟩
  · unfold row_cols
    rw [List.pairwise_map]
    have hf : ((assemble_entries entries).filter
        fun e => decide (e.1.1 = r)).Pairwise fun a b => key_lt a.1 b.1 :=
      hpair.filter _
    refine List.Pairwise.imp_of_mem ?_ hf
    intro a b ha hb hlt
    have hra : a.1.1 = r := by simpa using (List.mem_filter.mp ha).2
    have hrb : b.1.1 = r := by simpa using (List.mem_filter.mp hb).2
    rcases hlt with h | ⟨h1, h2⟩
    · rw [hra, hrb] at h
      exact absurd h (lt_irrefl r)
    · exact h2
  · intro k
    rw [assemble_entries, key_sum_merge_dups, key_sum_perm hperm]
  · intro k
    constructor
    · rintro ⟨x, hx, hk⟩
      rcases merge_dups_key_mem _ x hx with ⟨y, hy, hk2⟩
      exact ⟨y, (List.mem_insertionSort entry_le).mp hy, hk2.trans hk⟩
    · rintro ⟨y, hy, hk⟩
      rcases merge_dups_key_mem_rev _ y
        ((List.mem_insertionSort entry_le).mpr hy) with ⟨x, hx, hk2⟩
      exact ⟨x, hx, hk2.trans hk⟩

theorem length_filter_partition (l : List AsmEntry) (p : AsmEntry → Bool) :
    l.length = (l.filter p).length + (l.filter fun a => !p a).length := by
  induction l with
  | nil => rfl
  | cons a t ih =>
    by_cases h : p a <;> simp [List.filter_cons, h, ih] <;> omega

/-- C4: every row id produced by the row map lies in exactly one of the
owned and shared partitions; the combined row count is the sum of the
owned and shared counts (likewise for nonzeros partitioned by the
ownership predicate on rows); owned rows form the prefix range of the
layout and shared rows the suffix range. -/
theorem row_map_owned_shared_partition (rows : List Int) (owned : Int → Bool)
    (l : List AsmEntry) :
    (∀ r ∈ rows,
      (r ∈ owned_rows rows owned ∧ r ∉ shared_rows rows owned) ∨
        (r ∉ owned_rows rows owned ∧ r ∈ shared_rows rows owned))
  ∧ (∀ r, r ∈ row_map_rows rows owned ↔ r ∈ rows)
  ∧ getNumRows rows owned =
      getNumRowsOwned rows owned + getNumRowsShared rows owned
  ∧ (row_map_rows rows owned).take (getNumRowsOwned rows owned) =
      owned_rows rows owned
  ∧ (row_map_rows rows owned).drop (getNumRowsOwned rows owned) =
      shared_rows rows owned
  ∧ l.length =
      getNumNonzerosOwned l owned + getNumNonzerosShared l owned := by
  refine ⟨?_, ?_, ?_, ?_, ?_, ?_⟩
  · intro r hr
    by_cases h : owned r
    · refine Or.inl ⟨List.mem_filter.mpr ⟨hr, h⟩, fun hc => ?_⟩
      have := (List.mem_filter.mp hc).2
      rw [h] at this
      cases this
    · refine Or.inr ⟨fun hc => ?_, List.mem_filter.mpr ⟨hr, by
        rw [Bool.not_eq_true] at h
        rw [h]; rfl⟩⟩
      exact h ((List.mem_filter.mp hc).2)
  · intro r
    unfold row_map_rows owned_rows shared_rows
    rw [List.mem_append, List.mem_filter, List.mem_filter]
    constructor
    · rintro (⟨h, _⟩ | ⟨h, _⟩) <;> exact h
    · intro h
      by_cases ho : owned r
      · exact Or.inl ⟨h, ho⟩
      · exact Or.inr ⟨h, by rw [Bool.not_eq_true] at ho; rw [ho]; rfl⟩
  · unfold getNumRows row_map_rows getNumRowsOwned getNumRowsShared
    exact List.length_append _ _
  · exact List.take_left _ _
  · exact List.drop_left _ _
  · exact length_filter_partition l _

/-- C2 counterexample: on a batch whose lane 0 is valid but lane 1 is
invalid, the gather's resolution (a per-lane check of each lane's own
node-(0,0,0) handle, StkSimdGatheredElementData.C lines 43-45) redirects
lane 1 to lane 0's handle, whereas the claim's once-per-batch lane-0
check would keep lane 1's own (invalid) handle: the two policies give
different mesh indices at a concrete input. -/
theorem gather_lane_check_is_per_lane :
    resolve_elem connCx 0 0 0 0 1 = ⟨10, true⟩ ∧
      resolve_elem_batch_policy connCx 0 0 0 0 1 = ⟨99, false⟩ ∧
      resolve_elem connCx 0 0 0 0 1 ≠ resolve_elem_batch_policy connCx 0 0 0 0 1 := by
  decide

/-- C2 amended: lane validity is determined per lane (once per lane per
batch, from that lane's node-(0,0,0) handle; for the node gather, from
the lane's own handle), never per node: the resolution of a lane is
uniform over the whole tensor-product stencil, and every lane whose
checked handle is invalid resolves to lane 0's handle at the
corresponding node. -/
theorem gather_lane_resolution_uniform (conn : ElemConn) (connN : NodeConn)
    (index n : Nat) :
    ((∀ k j i, resolve_elem conn index k j i n = conn index k j i n) ∨
      (∀ k j i, resolve_elem conn index k j i n = conn index k j i 0))
  ∧ (valid_mesh_index (conn index 0 0 0 n) = false →
      ∀ k j i, resolve_elem conn index k j i n = conn index k j i 0)
  ∧ (valid_mesh_index (connN index n) = false →
      resolve_node connN index n = connN index 0) := by
  refine ⟨?_, ?_, ?_⟩
  · by_cases h : valid_mesh_index (conn index 0 0 0 n)
    · exact Or.inl fun k j i => by rw [resolve_elem, if_pos h]
    · exact Or.inr fun k j i => by rw [resolve_elem, if_neg h]
  · intro h k j i
    rw [resolve_elem, if_neg (by rw [h]; exact fun hc => Bool.noConfusion hc)]
  · intro h
    rw [resolve_node, if_neg (by rw [h]; exact fun hc => Bool.noConfusion hc)]

/-- Witness for the amended C2 theorem at a concrete connectivity
table. -/
theorem gather_lane_resolution_uniform_witness :
    resolve_elem connCx 0 1 1 1 1 = connCx 0 1 1 1 0 ∧
      resolve_node (fun _ n => if n = 0 then ⟨5, true⟩ else ⟨7, false⟩) 0 1 =
        (fun (_ n : Nat) => if n = 0 then (⟨5, true⟩ : MeshIndex)
          else ⟨7, false⟩) 0 0 :=
  ⟨(gather_lane_resolution_uniform connCx (fun _ _ => ⟨0, true⟩) 0 1).2.1
      (by decide) 1 1 1,
    (gather_lane_resolution_uniform connCx
        (fun _ n => if n = 0 then ⟨5, true⟩ else ⟨7, false⟩) 0 1).2.2
      (by decide)⟩

/-- C3: (a) for every coefficient table, box, coordinate component `di`
and point `(k,j,i)`, each Jacobian component computed by
`hex_jacobian_component` is the fixed bilinear combination of the 8 box
corner coordinates with the spec's weights — products of linear shape
functions whose pattern depends only on which reference axis `dj` is
held fixed, not on `di` and not on the polynomial order (the weight
`spec_weight` takes neither `p` nor `di`); (b) `volume_metric` stores
exactly the determinant of that Jacobian; (c) for a straight-edged
(parallelepiped) hexahedron the computed element volume — the sum of
the stored `p = 1` point values under the unit quadrature weights —
equals the closed-form box volume, the triple product of the edges. -/
theorem volume_metric_trilinear_correct :
    (∀ (Nlin box : Nat → Nat → ℚ) (di k j i : Nat) (dj : Fin 3),
      hex_jacobian_component Nlin box dj di k j i =
        ∑ c ∈ Finset.range 8, spec_weight Nlin dj c k j i * box di c)
  ∧ (∀ (p : Nat) (Nlin : Nat → Nat → ℚ) coords (index k j i : Nat),
      volume_metric p Nlin coords index k j i =
        det3 (linear_hex_jacobian Nlin
          (hex_vertex_coordinates p coords index) k j i))
  ∧ (∀ t u v w : Nat → ℚ,
      (∑ k ∈ Finset.range 2, ∑ j ∈ Finset.range 2, ∑ i ∈ Finset.range 2,
        volume_metric 1 nlin_p1 (para_coords t u v w) 0 k j i) =
        triple_product u v w) := by
  refine ⟨?_, fun _ _ _ _ _ _ _ => rfl, ?_⟩
  · intro Nlin box di k j i dj
    fin_cases dj <;>
      simp [hex_jacobian_component, spec_weight, Finset.sum_range_succ, iSide,
        jSide, kSide, corner_kji, dsign] <;>
      ring
  · intro t u v w
    simp [volume_metric, Finset.sum_range_succ, det3, linear_hex_jacobian,
      hex_jacobian_component, hex_vertex_coordinates, corner_kji, para_coords,
      nlin_p1, triple_product]
    ring

set_option maxHeartbeats 1600000 in
/-- C3 counterexample: on the non-degenerate straight-edged (trilinear)
hexahedron `x = ξ, y = η + ξζ/2, z = ζ + ξη/2` — whose Jacobian
determinant `1 - ξ²/4` is positive at every sampled point — the `p = 1`
computed element volume (the unit-weight sum of the stored values) is
`6`, while the closed-form trilinear volume is `22/3`: the volume
identity the claim asserts for every straight-edged hexahedron fails
off the parallelepiped subclass. -/
theorem trilinear_hex_volume_not_exact :
    (∑ k ∈ Finset.range 2, ∑ j ∈ Finset.range 2, ∑ i ∈ Finset.range 2,
      volume_metric 1 nlin_p1 ruled_hex_coords 0 k j i) = 6
  ∧ trilinear_volume (hex_vertex_coordinates 1 ruled_hex_coords 0) = 22/3
  ∧ (∀ k j i : Fin 3, 0 < det3 (linear_hex_jacobian nlin_simpson
      (hex_vertex_coordinates 1 ruled_hex_coords 0) k j i))
  ∧ (6 : ℚ) ≠ 22/3 := by
  refine ⟨?_, ?_, ?_, by norm_num⟩
  · norm_num [volume_metric, Finset.sum_range_succ, det3, linear_hex_jacobian,
      hex_jacobian_component, hex_vertex_coordinates, corner_kji,
      ruled_hex_coords, corner_sign, nlin_p1]
  · norm_num [trilinear_volume, Finset.sum_range_succ, det3,
      linear_hex_jacobian, hex_jacobian_component, hex_vertex_coordinates,
      corner_kji, ruled_hex_coords, corner_sign, nlin_simpson, simpson_w]
  · intro k j i
    fin_cases k <;> fin_cases j <;> fin_cases i <;>
      norm_num [det3, linear_hex_jacobian, hex_jacobian_component,
        hex_vertex_coordinates, corner_kji, ruled_hex_coords, corner_sign,
        nlin_simpson]

/-- C7: `volume_metric` has no error path: it stores the signed Jacobian
determinant unconditionally for every input coordinate view, and on a
concrete inverted element (the mirrored unit cube) every stored value is
the negative determinant `-1/8 < 0`, propagated as a plain number. -/
theorem volume_metric_signed_no_error :
    (∀ (p : Nat) (Nlin : Nat → Nat → ℚ) coords (index k j i : Nat),
      volume_metric p Nlin coords index k j i =
        det3 (linear_hex_jacobian Nlin
          (hex_vertex_coordinates p coords index) k j i))
  ∧ (∀ k j i : Fin 2,
      volume_metric 1 nlin_p1 inv_cube_coords 0 k j i = -(1/8) ∧
        volume_metric 1 nlin_p1 inv_cube_coords 0 k j i < 0) := by
  refine ⟨fun _ _ _ _ _ _ _ => rfl, ?_⟩
  intro k j i
  fin_cases k <;> fin_cases j <;> fin_cases i <;>
    norm_num [volume_metric, det3, linear_hex_jacobian, hex_jacobian_component,
      hex_vertex_coordinates, corner_kji, inv_cube_coords, para_coords, nlin_p1]

/-- C10: the two-argument overload of `volume_metric_t::invoke` equals
the pointwise product of `alpha` with the one-argument overload, at
every batch and point, for every coefficient table and views. -/
theorem volume_metric_alpha_factorizes :
    ∀ (p : Nat) (Nlin : Nat → Nat → ℚ) alpha coords (index k j i : Nat),
      volume_metric_alpha p Nlin alpha coords index k j i =
        alpha index k j i * volume_metric p Nlin coords index k j i :=
  fun _ _ _ _ _ _ _ _ => rfl

/-- C8: an empty entity partition gives a zero-extent table
(`⌈0 / L⌉ = 0` batches) and the downstream gathers perform no writes at
all — their store lists are empty and the output views are returned
with every slot untouched — with no error path taken. -/
theorem empty_partition_gather_no_writes :
    (∀ L, batch_count 0 L = 0)
  ∧ (∀ p L conn field, scalar_gather_writes p L 0 conn field = [])
  ∧ (∀ p L conn field, vector_gather_writes p L 0 conn field = [])
  ∧ (∀ L conn field, node_gather_writes L 0 conn field = [])
  ∧ (∀ p L conn field out, scalar_gather p L 0 conn field out = out)
  ∧ (∀ L conn field out, node_gather L 0 conn field out = out) := by
  refine ⟨?_, fun _ _ _ _ => rfl, fun _ _ _ _ => rfl, fun _ _ _ => rfl,
    fun _ _ _ _ _ => rfl, fun _ _ _ _ => rfl⟩
  intro L
  unfold batch_count
  cases L with
  | zero => rfl
  | succ m =>
    rw [Nat.zero_add]
    exact Nat.div_eq_of_lt (Nat.sub_lt (Nat.succ_pos m) Nat.one_pos)

theorem applyWrites_cons {α : Type} [DecidableEq α] (w : GWrite α)
    (ws : List (GWrite α)) (out : α → Nat → ℚ) :
    applyWrites (w :: ws) out =
      applyWrites ws
        (fun s l => if s = w.slot ∧ l = w.lane then w.value else out s l) :=
  rfl

theorem applyWrites_not_written {α : Type} [DecidableEq α] :
    ∀ (ws : List (GWrite α)) (out : α → Nat → ℚ) (s : α) (l : Nat),
      (∀ w ∈ ws, ¬(s = w.slot ∧ l = w.lane)) → applyWrites ws out s l = out s l := by
  intro ws
  induction ws with
  | nil => intro out s l _; rfl
  | cons w ws ih =>
    intro out s l h
    rw [applyWrites_cons, ih _ s l fun w' hw' => h w' (List.mem_cons_of_mem w hw')]
    rw [if_neg (h w (List.mem_cons_self w ws))]

theorem applyWrites_unique_value {α : Type} [DecidableEq α] :
    ∀ (ws : List (GWrite α)) (out : α → Nat → ℚ) (s : α) (l : Nat) (v : ℚ),
      (∃ w ∈ ws, s = w.slot ∧ l = w.lane) →
      (∀ w ∈ ws, s = w.slot ∧ l = w.lane → w.value = v) →
      applyWrites ws out s l = v := by
  intro ws
  induction ws with
  | nil =>
    intro out s l v hex _
    rcases hex with ⟨w, hw, _⟩
    cases hw
  | cons w ws ih =>
    intro out s l v hex huniq
    rw [applyWrites_cons]
    by_cases hmem : ∃ w' ∈ ws, s = w'.slot ∧ l = w'.lane
    · exact ih _ s l v hmem fun w' hw' hk =>
        huniq w' (List.mem_cons_of_mem w hw') hk
    · push_neg at hmem
      rw [applyWrites_not_written ws _ s l fun w' hw' => by
        intro hc
        exact hmem w' hw' hc.1 hc.2]
      rcases hex with ⟨w', hw', hkey⟩
      rcases List.mem_cons.mp hw' with h1 | h1
      · subst h1
        rw [if_pos hkey]
        exact huniq w' (List.mem_cons_self w' ws) hkey
      · exact absurd hkey.2 (hmem w' h1 hkey.1)

theorem mem_scalar_gather_writes {p L nb : Nat} {conn : ElemConn}
    {field : MeshIndex → Nat → ℚ} {w : GWrite (Nat × Nat × Nat × Nat)} :
    w ∈ scalar_gather_writes p L nb conn field ↔
      ∃ index < nb, ∃ n < L, ∃ k < p + 1, ∃ j < p + 1, ∃ i < p + 1,
        w = ⟨(index, k, j, i), n, field (resolve_elem conn index k j i n) 0⟩ := by
  simp only [scalar_gather_writes, List.mem_flatMap, List.mem_map,
    List.mem_range]
  constructor
  · rintro ⟨a, ha, b, hb, c, hc, d, hd, e, he, rfl⟩
    exact ⟨a, ha, b, hb, c, hc, d, hd, e, he, rfl⟩
  · rintro ⟨a, ha, b, hb, c, hc, d, hd, e, he, rfl⟩
    exact ⟨a, ha, b, hb, c, hc, d, hd, e, he, rfl⟩


theorem mem_vector_gather_writes {p L nb : Nat} {conn : ElemConn}
    {field : MeshIndex → Nat → ℚ} {w : GWrite (Nat × Nat × Nat × Nat × Nat)} :
    w ∈ vector_gather_writes p L nb conn field ↔
      ∃ index < nb, ∃ n < L, ∃ k < p + 1, ∃ j < p + 1, ∃ i < p + 1, ∃ c < 3,
        w = ⟨(index, k, j, i, c), n,
          field (resolve_elem conn index k j i n) c⟩ := by
  simp only [vector_gather_writes, List.mem_flatMap, List.mem_map,
    List.mem_range]
  constructor
  · rintro ⟨a, ha, b, hb, c, hc, d, hd, e, he, f, hf, rfl⟩
    exact ⟨a, ha, b, hb, c, hc, d, hd, e, he, f, hf, rfl⟩
  · rintro ⟨a, ha, b, hb, c, hc, d, hd, e, he, f, hf, rfl⟩
    exact ⟨a, ha, b, hb, c, hc, d, hd, e, he, f, hf, rfl⟩

/-- C6: for every batch, lane and tensor-product node in range, the
scalar gather stores into the output slot exactly the field value of the
entity handle resolved through the padding policy (and each of the three
components, for the vector variant); slots outside the iteration space
are left untouched, and the field accessor is consulted read-only (it is
a plain function of the handle). -/
theorem gather_writes_field_values (p L nb : Nat) (conn : ElemConn)
    (field : MeshIndex → Nat → ℚ) (out : Nat × Nat × Nat × Nat → Nat → ℚ)
    (outv : Nat × Nat × Nat × Nat × Nat → Nat → ℚ) (index k j i n : Nat)
    (hidx : index < nb) (hk : k < p + 1) (hj : j < p + 1) (hi : i < p + 1)
    (hn : n < L) :
    scalar_gather p L nb conn field out (index, k, j, i) n =
      field (resolve_elem conn index k j i n) 0
  ∧ (∀ c, c < 3 →
      vector_gather p L nb conn field outv (index, k, j, i, c) n =
        field (resolve_elem conn index k j i n) c)
  ∧ (∀ (s : Nat × Nat × Nat × Nat) (lane : Nat),
      ¬(s.1 < nb ∧ s.2.1 < p + 1 ∧ s.2.2.1 < p + 1 ∧ s.2.2.2 < p + 1 ∧
          lane < L) →
      scalar_gather p L nb conn field out s lane = out s lane) := by
  refine ⟨?_, ?_, ?_⟩
  · apply applyWrites_unique_value
    · exact ⟨⟨(index, k, j, i), n, field (resolve_elem conn index k j i n) 0⟩,
        mem_scalar_gather_writes.mpr
          ⟨index, hidx, n, hn, k, hk, j, hj, i, hi, rfl⟩, rfl, rfl⟩
    · intro w hw hkey
      rcases mem_scalar_gather_writes.mp hw with
        ⟨a, _, b, _, c, _, d, _, e, _, rfl⟩
      obtain ⟨hs, hl⟩ := hkey
      simp only [Prod.mk.injEq] at hs
      obtain ⟨h1, h2, h3, h4⟩ := hs
      subst h1; subst h2; subst h3; subst h4; subst hl
      rfl
  · intro c hc
    apply applyWrites_unique_value
    · exact ⟨⟨(index, k, j, i, c), n,
        field (resolve_elem conn index k j i n) c⟩,
        mem_vector_gather_writes.mpr
          ⟨index, hidx, n, hn, k, hk, j, hj, i, hi, c, hc, rfl⟩, rfl, rfl⟩
    · intro w hw hkey
      rcases mem_vector_gather_writes.mp hw with
        ⟨a, _, b, _, c2, _, d, _, e, _, f, _, rfl⟩
      obtain ⟨hs, hl⟩ := hkey
      simp only [Prod.mk.injEq] at hs
      obtain ⟨h1, h2, h3, h4, h5⟩ := hs
      subst h1; subst h2; subst h3; subst h4; subst h5; subst hl
      rfl
  · intro s lane hrange
    apply applyWrites_not_written
    intro w hw hkey
    rcases mem_scalar_gather_writes.mp hw with
      ⟨a, ha, b, hb, c, hc, d, hd, e, he, rfl⟩
    apply hrange
    rw [hkey.1, hkey.2]
    exact ⟨ha, hc, hd, he, hb⟩

/-- Witness for C6 at a concrete connectivity table, field and output
view. -/
theorem gather_writes_field_values_witness :
    scalar_gather 1 2 1 (fun _ _ _ _ _ => ⟨3, true⟩) (fun _ _ => 7)
      (fun _ _ => 0) (0, 0, 0, 0) 0 = 7 :=
  (gather_writes_field_values 1 2 1 (fun _ _ _ _ _ => ⟨3, true⟩)
    (fun _ _ => 7) (fun _ _ => 0) (fun _ _ => 0) 0 0 0 0 0 (by decide)
    (by decide) (by decide) (by decide) (by decide)).1

/-- C9: under the preconditions that lane 0 of every connectivity batch
holds valid entity handles and that lane validity is coherent across a
lane's stencil (a lane whose checked node-(0,0,0) handle is valid has
valid handles at every node — true of tables built by `MeshIndexMap`,
whose lanes hold either a whole entity or padding), every mesh index the
element, face and node gather kernels pass to `field.get` is valid: an
invalid lane always falls back to a lane-0 handle. -/
theorem gather_accesses_always_valid (p L nb nbF nbN : Nat) (conn : ElemConn)
    (connF : FaceConn) (connN : NodeConn)
    (h0 : ∀ index k j i, index < nb →
      valid_mesh_index (conn index k j i 0) = true)
    (hcoh : ∀ index k j i n, index < nb →
      valid_mesh_index (conn index 0 0 0 n) = true →
      valid_mesh_index (conn index k j i n) = true)
    (h0F : ∀ index j i, index < nbF →
      valid_mesh_index (connF index j i 0) = true)
    (hcohF : ∀ index j i n, index < nbF →
      valid_mesh_index (connF index 0 0 n) = true →
      valid_mesh_index (connF index j i n) = true)
    (h0N : ∀ index, index < nbN → valid_mesh_index (connN index 0) = true) :
    (∀ m ∈ scalar_gather_accessed p L nb conn, valid_mesh_index m = true)
  ∧ (∀ m ∈ face_gather_accessed p L nbF connF, valid_mesh_index m = true)
  ∧ (∀ m ∈ node_gather_accessed L nbN connN, valid_mesh_index m = true) := by
  refine ⟨?_, ?_, ?_⟩
  · intro m hm
    simp only [scalar_gather_accessed, List.mem_flatMap, List.mem_map,
      List.mem_range] at hm
    rcases hm with ⟨a, ha, n, _, k, _, j, _, i, _, rfl⟩
    rw [resolve_elem]
    by_cases h : valid_mesh_index (conn a 0 0 0 n)
    · rw [if_pos h]
      exact hcoh a k j i n ha h
    · rw [if_neg h]
      exact h0 a k j i ha
  · intro m hm
    simp only [face_gather_accessed, List.mem_flatMap, List.mem_map,
      List.mem_range] at hm
    rcases hm with ⟨a, ha, n, _, j, _, i, _, rfl⟩
    rw [resolve_face]
    by_cases h : valid_mesh_index (connF a 0 0 n)
    · rw [if_pos h]
      exact hcohF a j i n ha h
    · rw [if_neg h]
      exact h0F a j i ha
  · intro m hm
    simp only [node_gather_accessed, List.mem_flatMap, List.mem_map,
      List.mem_range] at hm
    rcases hm with ⟨a, ha, n, _, rfl⟩
    rw [resolve_node]
    by_cases h : valid_mesh_index (connN a n)
    · rw [if_pos h]
      exact h
    · rw [if_neg h]
      exact h0N a ha

/-- Witness for C9 on concrete all-valid connectivity tables, applied to
a concrete accessed mesh index. -/
theorem gather_accesses_always_valid_witness :
    valid_mesh_index ⟨3, true⟩ = true :=
  (gather_accesses_always_valid 1 2 1 1 1 (fun _ _ _ _ _ => ⟨3, true⟩)
    (fun _ _ _ _ => ⟨4, true⟩) (fun _ _ => ⟨5, true⟩)
    (fun _ _ _ _ _ => rfl) (fun _ _ _ _ _ _ _ => rfl) (fun _ _ _ _ => rfl)
    (fun _ _ _ _ _ _ => rfl) (fun _ _ => rfl)).1 ⟨3, true⟩ (by decide)

set_option maxRecDepth 2000 in
unseal Rat.add Rat.mul Rat.inv Rat.sub in
/-- Witness for C1 at a concrete contribution stream with a duplicate
(row, col) key. -/
theorem assemble_csr_sorted_unique_exact_witness :
    key_sum (assemble_entries [((1, 2), 3), ((1, 2), 4), ((0, 5), 1)]) (1, 2) =
        key_sum [((1, 2), 3), ((1, 2), 4), ((0, 5), 1)] (1, 2) ∧
      key_sum (assemble_entries [((1, 2), 3), ((1, 2), 4), ((0, 5), 1)]) (1, 2) = 7 :=
  ⟨(assemble_csr_sorted_unique_exact
      [((1, 2), 3), ((1, 2), 4), ((0, 5), 1)] 1).2.2.1 (1, 2), by decide⟩

/-- Witness for C4 at a concrete row set and ownership predicate. -/
theorem row_map_owned_shared_partition_witness :
    ((0 : Int) ∈ owned_rows [0, 1, 2] (fun r => decide (r < 2)) ∧
        (0 : Int) ∉ shared_rows [0, 1, 2] (fun r => decide (r < 2))) ∨
      ((0 : Int) ∉ owned_rows [0, 1, 2] (fun r => decide (r < 2)) ∧
        (0 : Int) ∈ shared_rows [0, 1, 2] (fun r => decide (r < 2))) :=
  (row_map_owned_shared_partition [0, 1, 2] (fun r => decide (r < 2)) []).1
    0 (by decide)

theorem bc_contribs_eq_flatMap : bc_contribs = sides_bc.flatMap bc_side := rfl

theorem sum_map_filter_eq {α : Type} (l : List α) (p : α → Bool) (g : α → ℚ) :
    ((l.filter p).map g).sum = (l.map fun x => if p x then g x else 0).sum := by
  induction l with
  | nil => rfl
  | cons a t ih =>
    by_cases h : p a <;> simp [List.filter_cons, h, ih]

theorem sum_map_flatMap_eq {α β : Type} (l : List α) (f : α → List β)
    (g : β → ℚ) :
    ((l.flatMap f).map g).sum = (l.map fun a => ((f a).map g).sum).sum := by
  induction l with
  | nil => rfl
  | cons a t ih => simp [ih]

theorem list_range_map_sum (n : Nat) (f : Nat → ℚ) :
    ((List.range n).map f).sum = ∑ i ∈ Finset.range n, f i := by
  induction n with
  | zero => rfl
  | succ m ih => rw [List.range_succ, Finset.sum_range_succ, ← ih]; simp

theorem place_eq_iff (d : Fin 3) (c a b : Nat) (nd : Nat × Nat × Nat) :
    (place d c a b = nd) ↔
      (axcoord d nd = c ∧ a = tra d nd ∧ b = trb d nd) := by
  fin_cases d <;> rcases nd with ⟨x, y, z⟩ <;>
    simp only [place, axcoord, tra, trb, Prod.mk.injEq] <;>
    omega

theorem ite_and_eq_mul (P Q : Prop) [Decidable P] [Decidable Q] (v : ℚ) :
    (if P ∧ Q then v else 0) =
      (if P then (1 : ℚ) else 0) * (if Q then v else 0) := by
  by_cases hP : P <;> by_cases hQ : Q <;> simp [hP, hQ]

theorem ite_eq_mul_one (Q : Prop) [Decidable Q] (v : ℚ) :
    (if Q then v else 0) = (if Q then (1 : ℚ) else 0) * v := by
  by_cases hQ : Q <;> simp [hQ]

theorem cond_shuffle (A B P Q : Prop) :
    ((A ∧ P ∧ Q) ∧ B) ↔ ((B ∧ A) ∧ (P ∧ Q)) := by tauto

theorem sum_sum_mul (s t : Finset Nat) (f g : Nat → ℚ) :
    (∑ i ∈ s, ∑ j ∈ t, f i * g j) = (∑ i ∈ s, f i) * (∑ j ∈ t, g j) :=
  (Finset.sum_mul_sum s t f g).symm

theorem side_sum_eq (dp : Fin 3) (c : Nat) (sg : ℚ) (nd : Nat × Nat × Nat)
    (d : Fin 3) :
    ((bc_side (dp, c, sg)).map
        (fun t => if decide (t.1 = nd ∧ t.2.1 = d) then t.2.2 else 0)).sum =
      if dp = d ∧ axcoord dp nd = c then
        cntq (tra dp nd) * (cntq (trb dp nd) *
          (qbc * (sg * (hbc / 2) * (hbc / 2))))
      else 0 := by
  have h01 : ([0, 1] : List Nat) = List.range 2 := rfl
  rw [bc_side]
  simp only [h01, nxbc, sum_map_flatMap_eq, List.map_map, list_range_map_sum,
    Function.comp]
  dsimp only
  simp only [decide_eq_true_eq, place_eq_iff, cond_shuffle]
  by_cases hC : dp = d ∧ axcoord dp nd = c
  · obtain ⟨hd, hax⟩ := hC
    subst hd
    simp only [hax, eq_self_iff_true, and_self, true_and, if_true]
    simp only [ite_and_eq_mul]
    rw [Finset.sum_congr rfl fun fa _ => Finset.sum_congr rfl fun fb _ =>
      sum_sum_mul (Finset.range 2) (Finset.range 2) _ _]
    rw [sum_sum_mul (Finset.range 4) (Finset.range 4) _ _]
    rw [cntq]
    congr 1
    rw [Finset.sum_congr rfl fun fb _ => Finset.sum_congr rfl fun db _ =>
      ite_eq_mul_one _ _]
    rw [Finset.sum_congr rfl fun fb (_ : fb ∈ Finset.range 4) =>
      (Finset.sum_mul (Finset.range 2) _ _).symm]
    rw [(Finset.sum_mul (Finset.range 4) _ _).symm, cntq]
  · simp [hC]

theorem cntq_nonneg (t : Nat) : 0 ≤ cntq t := by
  unfold cntq
  refine Finset.sum_nonneg fun fa _ => Finset.sum_nonneg fun w _ => ?_
  by_cases h : fa + w = t <;> simp [h]

theorem cntq_le_two (t : Nat) : cntq t ≤ 2 := by
  unfold cntq
  have inner : ∀ fa, (∑ w ∈ Finset.range 2, if fa + w = t then (1 : ℚ) else 0) =
      (if fa = t then (1 : ℚ) else 0) + (if fa + 1 = t then (1 : ℚ) else 0) := by
    intro fa
    rw [Finset.sum_range_succ, Finset.sum_range_one]
    simp
  simp only [inner]
  rw [Finset.sum_add_distrib]
  have h1 : (∑ fa ∈ Finset.range 4, if fa = t then (1 : ℚ) else 0) ≤ 1 := by
    rw [Finset.sum_ite_eq' (Finset.range 4) t fun _ => (1 : ℚ)]
    by_cases h : t ∈ Finset.range 4 <;> simp [h]
  have h2 : (∑ fa ∈ Finset.range 4, if fa + 1 = t then (1 : ℚ) else 0) ≤ 1 := by
    cases t with
    | zero => simp
    | succ u =>
      have hiff : ∀ fa : Nat, (fa + 1 = u + 1) ↔ (fa = u) := fun fa => by omega
      simp only [hiff]
      rw [Finset.sum_ite_eq' (Finset.range 4) u fun _ => (1 : ℚ)]
      by_cases h : u ∈ Finset.range 4 <;> simp [h]
  linarith

theorem cntq_two : cntq 2 = 2 := by
  unfold cntq
  simp only [Finset.sum_range_succ, Finset.sum_range_one]
  norm_num

theorem bc_term_bound (ta tb : Nat) (sg : ℚ) (hsg : |sg| = 1) :
    |cntq ta * (cntq tb * (qbc * (sg * (hbc / 2) * (hbc / 2))))| ≤ 23 / 160 := by
  rw [abs_mul, abs_mul, abs_of_nonneg (cntq_nonneg ta),
    abs_of_nonneg (cntq_nonneg tb)]
  have hv : |qbc * (sg * (hbc / 2) * (hbc / 2))| = 23 / 640 := by
    rw [qbc, hbc, abs_mul, abs_mul, abs_mul, hsg]
    rw [show |(-23 : ℚ)/10| = 23/10 by rw [abs_div]; norm_num]
    norm_num
  rw [hv]
  nlinarith [cntq_le_two ta, cntq_nonneg ta, cntq_le_two tb, cntq_nonneg tb]

theorem bc_residual_decomp (nd : Nat × Nat × Nat) (d : Fin 3) :
    bc_residual nd d =
      (if (0 : Fin 3) = d ∧ axcoord 0 nd = 0 then
        cntq (tra 0 nd) * (cntq (trb 0 nd) *
          (qbc * ((-1) * (hbc / 2) * (hbc / 2)))) else 0) +
      ((if (0 : Fin 3) = d ∧ axcoord 0 nd = nxbc then
        cntq (tra 0 nd) * (cntq (trb 0 nd) *
          (qbc * (1 * (hbc / 2) * (hbc / 2)))) else 0) +
      ((if (1 : Fin 3) = d ∧ axcoord 1 nd = 0 then
        cntq (tra 1 nd) * (cntq (trb 1 nd) *
          (qbc * ((-1) * (hbc / 2) * (hbc / 2)))) else 0) +
      ((if (1 : Fin 3) = d ∧ axcoord 1 nd = nxbc then
        cntq (tra 1 nd) * (cntq (trb 1 nd) *
          (qbc * (1 * (hbc / 2) * (hbc / 2)))) else 0) +
      ((if (2 : Fin 3) = d ∧ axcoord 2 nd = 0 then
        cntq (tra 2 nd) * (cntq (trb 2 nd) *
          (qbc * ((-1) * (hbc / 2) * (hbc / 2)))) else 0) +
      (if (2 : Fin 3) = d ∧ axcoord 2 nd = nxbc then
        cntq (tra 2 nd) * (cntq (trb 2 nd) *
          (qbc * (1 * (hbc / 2) * (hbc / 2)))) else 0))))) := by
  rw [bc_residual, sum_map_filter_eq, bc_contribs_eq_flatMap,
    sum_map_flatMap_eq]
  simp only [sides_bc, List.map_cons, List.map_nil, List.sum_cons,
    List.sum_nil, side_sum_eq, add_zero]

theorem bc_pair_bound (A : Nat) (X Y : ℚ) (hX : |X| ≤ 23 / 160)
    (hY : |Y| ≤ 23 / 160) :
    |(if A = 0 then X else 0) + (if A = nxbc then Y else 0)| ≤ 23 / 160 := by
  by_cases h0 : A = 0
  · rw [if_pos h0, if_neg (by rw [h0, nxbc]; omega), add_zero]
    exact hX
  · rw [if_neg h0, zero_add]
    by_cases h4 : A = nxbc
    · rw [if_pos h4]
      exact hY
    · rw [if_neg h4]
      norm_num

/-- C5: on the 4×4×4-cell unit cube with the boundary scalar fixed at
−2.3 on the boundary face set, the gradient boundary closure combined
through the single-rank additive owned+shared export yields a maximum
absolute residual component of exactly 23/160 = 0.14375 =
|−2.3| / (scale·nx)² with scale = 1, nx = 4: every node's residual
component (any node, any component) is bounded by that value and the
bound is attained at the centre node of a side. -/
theorem bc_residual_max_value :
    (∀ (nd : Nat × Nat × Nat) (d : Fin 3), |bc_residual nd d| ≤ 23 / 160)
  ∧ bc_residual (2, 2, 0) 2 = 23 / 160
  ∧ (23 / 160 : ℚ) = |qbc| / ((1 * (nxbc : ℚ)) * (1 * (nxbc : ℚ)))
  ∧ (23 / 160 : ℚ) = 14375 / 100000 := by
  have habs1 : |(-1 : ℚ)| = 1 := by norm_num
  have habs2 : |(1 : ℚ)| = 1 := by norm_num
  refine ⟨?_, ?_, ?_, by norm_num⟩
  · intro nd d
    rw [bc_residual_decomp]
    rcases (by fin_cases d <;> decide : d = 0 ∨ d = 1 ∨ d = 2) with h | h | h <;>
      subst h
    · simp only [eq_true (show (0 : Fin 3) = 0 from rfl),
        eq_false (show (1 : Fin 3) ≠ 0 by decide),
        eq_false (show (2 : Fin 3) ≠ 0 by decide), true_and, false_and,
        if_false, add_zero]
      exact bc_pair_bound _ _ _ (bc_term_bound _ _ _ habs1)
        (bc_term_bound _ _ _ habs2)
    · simp only [eq_false (show (0 : Fin 3) ≠ 1 by decide),
        eq_true (show (1 : Fin 3) = 1 from rfl),
        eq_false (show (2 : Fin 3) ≠ 1 by decide), true_and, false_and,
        if_false, add_zero, zero_add]
      exact bc_pair_bound _ _ _ (bc_term_bound _ _ _ habs1)
        (bc_term_bound _ _ _ habs2)
    · simp only [eq_false (show (0 : Fin 3) ≠ 2 by decide),
        eq_false (show (1 : Fin 3) ≠ 2 by decide),
        eq_true (show (2 : Fin 3) = 2 from rfl), true_and, false_and,
        if_false, add_zero, zero_add]
      exact bc_pair_bound _ _ _ (bc_term_bound _ _ _ habs1)
        (bc_term_bound _ _ _ habs2)
  · rw [bc_residual_decomp]
    simp only [eq_false (show (0 : Fin 3) ≠ 2 by decide),
      eq_false (show (1 : Fin 3) ≠ 2 by decide),
      eq_true (show (2 : Fin 3) = 2 from rfl), true_and, false_and,
      if_false, add_zero, zero_add, axcoord, tra, trb]
    rw [if_pos trivial, if_neg (show ¬(0 = nxbc) by decide)]
    rw [cntq_two, qbc, hbc]
    norm_num
  · rw [qbc, nxbc]
    rw [show |(-23 : ℚ)/10| = 23/10 by rw [abs_div]; norm_num]
    norm_num

end NaluWind
